import Mathlib

/-!
Verification of the Coqtail document-synchronization engine
(`coqtail.py`): sentence scanner, comment stripper, offset mapper and
the step/rewind script state machine.  Python text is modelled as
`List Char`, buffers as `List (List Char)` (one entry per line, without
newline characters), machine integers as `Nat`/`Int`, and Python's
`str.find` (which returns -1 on failure) as an `Int`-valued search.
-/

namespace Coqtail

/-- `begins pat s` is Python's `s.startswith(pat)` on character lists. -/
def begins (pat s : List Char) : Bool := decide (s.take pat.length = pat)

/-- Index of the first occurrence of `pat` in `s`, if any
(the core of Python's `str.find`). -/
def findSub (pat : List Char) : List Char → Option Nat
  | [] => if begins pat [] then some 0 else none
  | c :: t => if begins pat (c :: t) then some 0 else (findSub pat t).map (· + 1)

/-- Python's `s.find(pat)`: first index of `pat` in `s`, or `-1`. -/
def pyFind (s pat : List Char) : Int :=
  match findSub pat s with
  | none => -1
  | some n => n

/-- The comment-open delimiter of the scanned language. -/
def opC : List Char := ['(', '*']

/-- The comment-close delimiter of the scanned language. -/
def clC : List Char := ['*', ')']

/-- The loop of `_strip_comments`, with the loop state made explicit:
remaining text `msg`, running offset `off` into the original text,
comment `nesting` depth, accumulated non-comment segments `nocom` and
recorded comment spans `compos` (offset, length).  The `fuel` argument
bounds the number of iterations; since every iteration drops at least
two characters of `msg`, any `fuel > msg.length` is enough, and the
wrapper `stripComments` supplies it. -/
def stripAux : Nat → List Char → Nat → Int → List (List Char) → List (Nat × Nat) →
    List (List Char) × List (Nat × Nat)
  | 0, _, _, _, nocom, compos => (nocom, compos)
  | fuel + 1, msg, off, nesting, nocom, compos =>
    if msg = [] then (nocom, compos)
    else
      let s := pyFind msg opC
      let e := pyFind msg clC
      if s = -1 ∧ e = -1 then
        -- no comment delimiters left: keep the rest and stop
        (nocom ++ [msg], compos)
      else if s ≠ -1 ∧ (s < e ∨ e = -1) then
        -- a new (possibly nested) comment opens
        stripAux fuel (msg.drop (s.toNat + 2)) (off + s.toNat + 2) (nesting + 1)
          (if nesting = 0 then nocom ++ [msg.take s.toNat] else nocom)
          (if nesting = 0 then compos ++ [(off + s.toNat, 0)] else compos)
      else
        -- a comment closes (here `e ≠ -1`; `s = e` cannot happen for the
        -- two distinct two-character delimiters)
        stripAux fuel (msg.drop (e.toNat + 2)) (off + e.toNat + 2) (nesting - 1) nocom
          (if nesting - 1 = 0 then
            match compos.getLast? with
            | some q => compos.dropLast ++ [(q.1, off + e.toNat + 2 - q.1)]
            | none => compos  -- unreachable from the initial state (Python raises IndexError)
          else compos)

/-- Python's `" ".join` on character-list segments. -/
def joinSpace : List (List Char) → List Char
  | [] => []
  | [s] => s
  | s :: rest => s ++ ' ' :: joinSpace rest

/-- `_strip_comments`: remove all comments from `msg`, replacing each
top-level comment by a single joining space and recording its original
offset and length. -/
def stripComments (msg : List Char) : List Char × List (Nat × Nat) :=
  let r := stripAux (msg.length + 1) msg 0 0 [] []
  (joinSpace r.1, r.2)

/-- Companion scanner for the hypothesis "comments are properly matched
and nested": it walks the text exactly as `stripAux` does and accepts
iff no close-delimiter appears at depth 0 and the text ends at depth 0. -/
def balancedAux : Nat → List Char → Nat → Bool
  | 0, _, _ => false
  | fuel + 1, msg, nesting =>
    let s := pyFind msg opC
    let e := pyFind msg clC
    if s = -1 ∧ e = -1 then nesting == 0
    else if s ≠ -1 ∧ (s < e ∨ e = -1) then
      balancedAux fuel (msg.drop (s.toNat + 2)) (nesting + 1)
    else if nesting == 0 then false
    else balancedAux fuel (msg.drop (e.toNat + 2)) (nesting - 1)

/-- A text has properly matched and nested comments. -/
def balanced (msg : List Char) : Bool := balancedAux (msg.length + 1) msg 0

/-- `lines[i]` on a buffer; out-of-range reads yield `[]` (they only occur
where the Python code has already checked the index). -/
def pyGet (lines : List (List Char)) (i : Nat) : List Char := lines.getD i []

/-- Total buffer size used as an iteration budget: every line plus one
for the implicit line break. -/
def totLen (lines : List (List Char)) : Nat := (lines.map (fun l => l.length + 1)).sum

/-- Loop state of `_skip_block`: current line, column and nesting depth.
`nesting` is an `Int` exactly as in Python (it can drop below zero on
unbalanced input). -/
structure SkipSt where
  sline : Nat
  scol : Nat
  nesting : Int
deriving DecidableEq

/-- One iteration of the `_skip_block` loop.  `.inr r` means the loop has
finished with result `r`; `.inl st` is the state for the next iteration. -/
def skipBlockStep (lines : List (List Char)) (estr : List Char) (sstr : Option (List Char))
    (st : SkipSt) : SkipSt ⊕ Option (Nat × Nat) :=
  if st.nesting ≤ 0 then .inr (some (st.sline, st.scol))
  else if lines.length ≤ st.sline then .inr none
  else
    let line := (pyGet lines st.sline).drop st.scol
    let blk_end := pyFind line estr
    let blk_start := match sstr with
      | some s => pyFind line s
      | none => (-1 : Int)
    if blk_end ≠ -1 ∧ (blk_end < blk_start ∨ blk_start = -1) then
      -- found an end and no new start
      .inl ⟨st.sline, st.scol + blk_end.toNat + estr.length, st.nesting - 1⟩
    else if blk_start ≠ -1 then
      -- found a new start; here `sstr` is necessarily `some` (Python's assert)
      .inl ⟨st.sline, st.scol + blk_start.toNat + (sstr.getD []).length, st.nesting + 1⟩
    else
      -- nothing on this line
      .inl ⟨st.sline + 1, 0, st.nesting⟩

/-- Iterate `skipBlockStep` for at most `n` steps. -/
def skipBlockIter (lines : List (List Char)) (estr : List Char) (sstr : Option (List Char)) :
    Nat → SkipSt → SkipSt ⊕ Option (Nat × Nat)
  | 0, st => .inl st
  | n + 1, st =>
    match skipBlockStep lines estr sstr st with
    | .inl st' => skipBlockIter lines estr sstr n st'
    | .inr r => .inr r

/-- `_skip_block`: skip the next block delimited by `sstr`/`estr` starting
from `(sline, scol)`.  The iteration budget `2 * totLen lines + 2` is
provably enough for every configuration the program uses (nonempty
delimiters); with it unspent behaviour matches the Python loop. -/
def skip_block (lines : List (List Char)) (sline scol : Nat) (estr : List Char)
    (sstr : Option (List Char)) : Option (Nat × Nat) :=
  match skipBlockIter lines estr sstr (2 * totLen lines + 2) ⟨sline, scol, 1⟩ with
  | .inr r => r
  | .inl _ => none

/-- `_skip_comment`: skip the next block contained in `(*` `*)`. -/
def skip_comment (lines : List (List Char)) (sline scol : Nat) : Option (Nat × Nat) :=
  skip_block lines sline scol clC (some opC)

/-- The string delimiter. -/
def quoteC : List Char := ['"']

/-- `_skip_str`: skip the next block contained in `"` `"`. -/
def skip_str (lines : List (List Char)) (sline scol : Nat) : Option (Nat × Nat) :=
  skip_block lines sline scol quoteC none

/-- The dot character as a pattern. -/
def dotC : List Char := ['.']

/-- One iteration of the `_find_dot_after` loop.  State is `(sline, scol)`. -/
def findDotStep (lines : List (List Char)) (st : Nat × Nat) :
    (Nat × Nat) ⊕ Option (Nat × Nat) :=
  if lines.length ≤ st.1 then .inr none
  else
    let line := (pyGet lines st.1).drop st.2
    let dot_pos := pyFind line dotC
    let com_pos := pyFind line opC
    let com_end_post := pyFind line clC
    let str_pos := pyFind line quoteC
    if com_pos = -1 ∧ com_end_post ≠ -1 then
      -- unmatched end-comment
      .inr none
    else if com_pos = -1 ∧ dot_pos = -1 ∧ str_pos = -1 then
      -- nothing on this line
      .inl (st.1 + 1, 0)
    else if dot_pos = -1 ∨ (0 ≤ com_pos ∧ com_pos < dot_pos) ∨
        (0 ≤ str_pos ∧ str_pos < dot_pos) then
      if str_pos = -1 ∨ (0 ≤ com_pos ∧ com_pos < str_pos) then
        -- a comment opens before the next '.'
        match skip_comment lines st.1 (st.2 + com_pos.toNat + 2) with
        | none => .inr none
        | some st' => .inl st'
      else
        -- a string starts before the next '.'
        match skip_str lines st.1 (st.2 + str_pos.toNat + 1) with
        | none => .inr none
        | some st' => .inl st'
    else if (line.drop dot_pos.toNat).take 2 = ['.'] ∨
        (line.drop dot_pos.toNat).take 2 = ['.', ' '] then
      -- Don't stop for '.' used in a qualified name or for '..'
      .inr (some (st.1, st.2 + dot_pos.toNat))
    else if (line.drop dot_pos.toNat).take 3 = ['.', '.', '.'] then
      -- But do allow '...'
      .inr (some (st.1, st.2 + dot_pos.toNat + 2))
    else if (line.drop dot_pos.toNat).take 2 = ['.', '.'] then
      -- Skip the second '.'
      .inl (st.1, st.2 + dot_pos.toNat + 2)
    else
      .inl (st.1, st.2 + dot_pos.toNat + 1)

/-- Iterate `findDotStep` for at most `n` steps; a spent budget reads as
"no dot found" and never occurs on the runs the theorems below describe. -/
def findDotIter (lines : List (List Char)) : Nat → Nat × Nat → Option (Nat × Nat)
  | 0, _ => none
  | n + 1, st =>
    match findDotStep lines st with
    | .inr r => r
    | .inl st' => findDotIter lines n st'

/-- `_find_dot_after`: find the next sentence-ending `.` after a point. -/
def find_dot_after (lines : List (List Char)) (sline scol : Nat) : Option (Nat × Nat) :=
  findDotIter lines (2 * totLen lines + 2) (sline, scol)

/-- Python whitespace, as stripped by `str.lstrip` / tested by `rstrip`. -/
def pySpace (c : Char) : Bool :=
  c = ' ' || c = '\t' || c = '\n' || c = '\r' || c = '\x0b' || c = '\x0c'

/-- The leading-whitespace loop of `_find_next_sentence`: starting at
index `line` (whose suffix of the buffer is `ls`) and column `col`
(for the first line only), find the first line holding a non-blank
character and the column where its content starts. -/
def skipWsFrom (ls : List (List Char)) (line col : Nat) : Option (Nat × Nat) :=
  match ls with
  | [] => none
  | l :: rest =>
    let first_line := (l.drop col).dropWhile pySpace
    if first_line ≠ [] then some (line, col + ((l.drop col).length - first_line.length))
    else skipWsFrom rest (line + 1) 0

/-- Proof-bullet characters. -/
def bulletChars : List Char := ['{', '}', '-', '+', '*']

/-- The outer loop of `_find_next_sentence`; one iteration per skipped
leading comment. -/
def findNextIter (lines : List (List Char)) : Nat → Nat × Nat → Option (Nat × Nat)
  | 0, _ => none
  | n + 1, st =>
    match skipWsFrom (lines.drop st.1) st.1 st.2 with
    | none => none  -- nothing left in the buffer but whitespace
    | some (line, col) =>
      let first_line := (pyGet lines line).drop col
      if begins opC first_line then
        -- skip a leading comment and restart
        match skip_comment lines line (col + 2) with
        | none => none
        | some st' => findNextIter lines n st'
      else if begins clC first_line then none  -- unmatched end-comment
      else
        match first_line with
        | [] => none  -- unreachable: `skipWsFrom` stopped at a non-blank character
        | b :: rest =>
          if bulletChars.contains b then
            -- '-', '+', '*' can be repeated
            some (line, col + (rest.takeWhile
              (fun ch => (bulletChars.drop 2).contains ch && ch == b)).length)
          else
            find_dot_after lines line col

/-- `_find_next_sentence`: find the end of the next sentence to send. -/
def find_next_sentence (lines : List (List Char)) (sline scol : Nat) : Option (Nat × Nat) :=
  findNextIter lines (totLen lines + 1) (sline, scol)

/-- A sentence range: start and stop positions, both inclusive. -/
structure Span where
  start : Nat × Nat
  stop : Nat × Nat
deriving DecidableEq

/-- `_get_message_range`: the next sentence to send after a given point. -/
def get_message_range (lines : List (List Char)) (after : Nat × Nat) : Option Span :=
  (find_next_sentence lines after.1 after.2).map fun ep => ⟨after, ep⟩

/-- `_adjust_offset`: adjust offsets into the stripped text by the
lengths of the comments stripped before them (each was replaced by one
space, hence the `- 1`). -/
def adjust_offset (s e : Int) : List (Nat × Nat) → Int × Int
  | [] => (s, e)
  | (coff, clen) :: rest =>
    adjust_offset
      (if (coff : Int) ≤ s then s + clen - 1 else s)
      (if (coff : Int) ≤ e then e + clen - 1 else e)
      rest

/-- Lexicographic strict order on positions, as Python compares tuples. -/
def posLt (p q : Nat × Nat) : Bool := p.1 < q.1 || (p.1 == q.1 && p.2 < q.2)

/-- Lexicographic order on positions, as Python compares tuples. -/
def posLe (p q : Nat × Nat) : Bool := posLt p q || p == q

/-- The position one column to the right. -/
def inc1 (p : Nat × Nat) : Nat × Nat := (p.1, p.2 + 1)

/-- A vimbufsync revision marker: buffer identity and the position the
revision was captured at (external input to `sync`). -/
structure BufSync where
  buf : Nat
  pos : Nat × Nat
deriving DecidableEq

/-- Outcome of one `coqtop.rewind` call: success with the number of extra
steps actually undone, an unexpected failure report, or a raised
`CoqtopError`. -/
inductive RewindR
  | ok (extra : Nat)
  | failed
  | exn
deriving DecidableEq

/-- Outcome of one `coqtop.dispatch` call. -/
inductive DispatchR
  | ok
  | failed
  | exn
deriving DecidableEq

/-- The mutable state of one `Coqtail` instance (the fields `_reset`
initializes, minus the two display buffers). -/
structure CoqtailState where
  saved_sync : Option BufSync
  endpoints : List (Nat × Nat)
  send_queue : List Span
  error_at : Option ((Nat × Nat) × (Nat × Nat))
deriving DecidableEq

/-- `_reset`: the initial state.  `fail` reaches it too, via
`coqtail#Stop`. -/
def resetState : CoqtailState :=
  { saved_sync := none, endpoints := [], send_queue := [], error_at := none }

/-- The last endpoint, or the document start `(0, 0)` when none exists —
the way `step`/`to_cursor` pick their scan origin. -/
def lastPoint (eps : List (Nat × Nat)) : Nat × Nat := eps.getLastD (0, 0)

/-- The dispatch loop of `send_until_fail`: returns the new endpoint
stack, or `none` when a `CoqtopError` aborted it (Python then runs
`fail`, which stops Coqtail and so resets the state).  On a dispatch
failure the queue is dropped; the error region it computes is rendered
by `reset_color` during the closing `refresh` and cleared there, so it
does not survive the call. -/
def sendLoop (oracle : Nat → DispatchR) :
    List Span → Nat → List (Nat × Nat) → Option (List (Nat × Nat))
  | [], _, eps => some eps
  | sp :: rest, k, eps =>
    match oracle k with
    | .exn => none
    | .ok => sendLoop oracle rest (k + 1) (eps ++ [inc1 sp.stop])
    | .failed => some eps

/-- `send_until_fail`: drain the send queue, dispatching each sentence,
with `oracle` giving Coqtop's successive responses. -/
def send_until_fail (oracle : Nat → DispatchR) (s : CoqtailState) : CoqtailState :=
  match sendLoop oracle s.send_queue 0 s.endpoints with
  | none => resetState
  | some eps => { s with endpoints := eps, send_queue := [], error_at := none }

/-- `rewind`: rewind Coq by `steps` sentences.  On success the endpoint
stack loses `steps + extra` entries from its tail; the trailing
`refresh` consumes any pending error region. -/
def rewind_op (steps : Nat) (r : RewindR) (s : CoqtailState) : CoqtailState :=
  if steps = 0 ∨ s.endpoints = [] then s
  else
    match r with
    | .exn => resetState
    | .failed => { s with error_at := none }
    | .ok extra =>
      { s with endpoints := s.endpoints.take (s.endpoints.length - (steps + extra)),
               error_at := none }

/-- `rewind_to`: rewind to a specific location by undoing every endpoint
at or past it. -/
def rewind_to (target : Nat × Nat) (r : RewindR) (s : CoqtailState) : CoqtailState :=
  rewind_op (s.endpoints.countP fun p => posLe target p) r s

/-- `sync`: reset if the buffer identity changed, otherwise rewind to the
saved revision's position; then save the current revision. -/
def sync_op (curr : BufSync) (r : RewindR) (s : CoqtailState) : CoqtailState :=
  let s' :=
    match s.saved_sync with
    | none => resetState
    | some sv =>
      if sv.buf ≠ curr.buf then resetState
      else rewind_to (sv.pos.1 - 1, sv.pos.2) r s
  { s' with saved_sync := some curr }

/-- `step`: sync, scan one sentence after the last endpoint, queue it and
drain the queue. -/
def step_op (doc : List (List Char)) (curr : BufSync) (r : RewindR)
    (oracle : Nat → DispatchR) (s : CoqtailState) : CoqtailState :=
  let s1 := sync_op curr r s
  match get_message_range doc (lastPoint s1.endpoints) with
  | none => s1
  | some sp => send_until_fail oracle { s1 with send_queue := s1.send_queue ++ [sp] }

/-- The scan-ahead loop of `to_cursor`: queue consecutive sentences whose
stop position does not pass `limit`.  `fuel` bounds the iterations; the
state machine's theorems hold for every budget. -/
def scanQueue (doc : List (List Char)) : Nat → Nat × Nat → Nat × Nat → List Span
  | 0, _, _ => []
  | n + 1, from_, limit =>
    match get_message_range doc from_ with
    | none => []
    | some sp =>
      if posLe sp.stop limit then sp :: scanQueue doc n (inc1 sp.stop) limit
      else []

/-- `to_cursor`: sync, then rewind to the cursor if it precedes the last
endpoint, else queue every sentence up to the cursor and drain the
queue.  The two possible prover rewinds (inside `sync` and in the rewind
branch) receive their own responses `r1`, `r2`. -/
def to_cursor_op (doc : List (List Char)) (curr : BufSync) (cursor : Nat × Nat)
    (r1 r2 : RewindR) (oracle : Nat → DispatchR) (fuel : Nat)
    (s : CoqtailState) : CoqtailState :=
  let s1 := sync_op curr r1 s
  let lp := lastPoint s1.endpoints
  if posLt (cursor.1 - 1, cursor.2) lp then
    rewind_to (cursor.1 - 1, cursor.2 + 2) r2 s1
  else
    send_until_fail oracle
      { s1 with send_queue := s1.send_queue ++ scanQueue doc fuel lp (cursor.1 - 1, cursor.2) }

/-- States of the script state machine reachable by any sequence of
`step`, `rewind`, `to_cursor` and `sync` operations, under arbitrary
documents, cursors, revision markers and prover responses. -/
inductive Reachable : CoqtailState → Prop
  | init : Reachable resetState
  | step (doc curr r oracle) {s} : Reachable s → Reachable (step_op doc curr r oracle s)
  | rewind (n r) {s} : Reachable s → Reachable (rewind_op n r s)
  | to_cursor (doc curr cursor r1 r2 oracle fuel) {s} :
      Reachable s → Reachable (to_cursor_op doc curr cursor r1 r2 oracle fuel s)
  | sync (curr r) {s} : Reachable s → Reachable (sync_op curr r s)

/-- The endpoint stack is strictly increasing in position order. -/
def sortedEps (l : List (Nat × Nat)) : Prop :=
  List.Pairwise (fun a b => posLt a b = true) l

/-- The queued sentences continue the endpoint stack: each stop position
is at or past the anchor, and the following sentence starts one column
after it. -/
def chainP : Nat × Nat → List Span → Prop
  | _, [] => True
  | p, sp :: rest => posLe p sp.stop = true ∧ chainP (inc1 sp.stop) rest

/-- A character that cannot take part in any delimiter `_find_dot_after`
searches for (`.`, `(*`, `*)`, `"`). -/
def plainChar (c : Char) : Bool :=
  !(c = '.' || c = '(' || c = ')' || c = '*' || c = '"')

/-- Total length of the accumulated non-comment segments. -/
def segLen (nocom : List (List Char)) : Nat := (nocom.map List.length).sum

/-- Total length of the recorded comment spans. -/
def spanLen (compos : List (Nat × Nat)) : Nat := (compos.map Prod.snd).sum

/-- Invariant of the `stripAux` loop at nesting depth 0: the segments and
completed spans account for exactly the `off` consumed characters, there
is one span per segment, and the spans end at increasing offsets, the
last one exactly at `off` whenever the text is already exhausted. -/
def StripInv0 (msg : List Char) (off : Nat) (nocom : List (List Char))
    (compos : List (Nat × Nat)) : Prop :=
  segLen nocom + spanLen compos = off ∧ nocom.length = compos.length ∧
  (compos = [] ∨ ∃ cs q, compos = cs ++ [q] ∧ 1 ≤ q.2 ∧ q.1 + q.2 ≤ off ∧
    (msg = [] → q.1 + q.2 = off) ∧ ∀ p ∈ cs, 1 ≤ p.2 ∧ p.1 + p.2 < q.1 + q.2)

/-- Invariant of the `stripAux` loop at positive nesting depth: the last
recorded span is the pending one, opened at offset `o` and still of
length 0, and the segments plus completed spans cover exactly the first
`o` characters. -/
def StripInvPos (off : Nat) (nocom : List (List Char))
    (compos : List (Nat × Nat)) : Prop :=
  ∃ o cs, compos = cs ++ [(o, 0)] ∧ segLen nocom + spanLen compos = o ∧
    nocom.length = compos.length ∧ o + 2 ≤ off ∧ ∀ p ∈ cs, 1 ≤ p.2 ∧ p.1 + p.2 ≤ o

/-- Total padding needed to re-expand each single-space replacement:
the sum over the spans of (length - 1). -/
def padLen (compos : List (Nat × Nat)) : Nat := (compos.map (fun p => p.2 - 1)).sum

/-- Conclusion of the `stripAux` invariant: the output segments and spans
account for all `L` characters of the original text, and either the last
processed piece was ordinary text (so there is one more segment than
spans and every span ends strictly inside the text), or the text ended
exactly at a comment close (so the last span ends at `L`), or the text
was empty. -/
def StripConcl (L : Nat) : List (List Char) × List (Nat × Nat) → Prop
  | (nocom, compos) =>
    segLen nocom + spanLen compos = L ∧
    ((nocom.length = compos.length + 1 ∧ ∀ p ∈ compos, 1 ≤ p.2 ∧ p.1 + p.2 < L) ∨
     (nocom.length = compos.length ∧
       ∃ cs q, compos = cs ++ [q] ∧ 1 ≤ q.2 ∧ q.1 + q.2 = L ∧
         ∀ p ∈ cs, 1 ≤ p.2 ∧ p.1 + p.2 < L) ∨
     (nocom = [] ∧ compos = [] ∧ L = 0))

/-- Induction hypothesis shape for the `stripAux` invariant proof. -/
def StripIH (f : Nat) : Prop :=
  ∀ (msg : List Char) (n off : Nat) (nocom : List (List Char)) (compos : List (Nat × Nat)),
    msg.length < f → balancedAux f msg n = true →
    (n = 0 → StripInv0 msg off nocom compos) →
    (0 < n → StripInvPos off nocom compos) →
    StripConcl (off + msg.length) (stripAux f msg off (n : Int) nocom compos)

theorem segLen_append (a b : List (List Char)) : segLen (a ++ b) = segLen a + segLen b := by
  simp [segLen]

theorem spanLen_append (a b : List (Nat × Nat)) :
    spanLen (a ++ b) = spanLen a + spanLen b := by
  simp [spanLen]

theorem joinSpace_length (ls : List (List Char)) :
    (joinSpace ls).length = segLen ls + (ls.length - 1) := by
  induction ls with
  | nil => simp [joinSpace, segLen]
  | cons s t ih =>
    cases t with
    | nil => simp [joinSpace, segLen]
    | cons u v =>
      simp only [joinSpace, List.length_append, List.length_cons, ih] at *
      simp [segLen] at *
      omega

theorem length_le_spanLen (l : List (Nat × Nat)) (h : ∀ p ∈ l, 1 ≤ p.2) :
    l.length ≤ spanLen l := by
  induction l with
  | nil => simp [spanLen]
  | cons p t ih =>
    have hp := h p (by simp)
    have ht := ih fun q hq => h q (by simp [hq])
    simp only [spanLen, List.map_cons, List.sum_cons, List.length_cons] at *
    omega

theorem padLen_eq (l : List (Nat × Nat)) (h : ∀ p ∈ l, 1 ≤ p.2) :
    padLen l = spanLen l - l.length := by
  induction l with
  | nil => simp [padLen, spanLen]
  | cons p t ih =>
    have hp := h p (by simp)
    have ht := ih fun q hq => h q (by simp [hq])
    have hlen := length_le_spanLen t fun q hq => h q (by simp [hq])
    simp only [padLen, spanLen, List.map_cons, List.sum_cons, List.length_cons] at *
    omega

theorem begins_length_le {pat s : List Char} (h : begins pat s = true) :
    pat.length ≤ s.length := by
  simp only [begins, decide_eq_true_eq] at h
  have := congrArg List.length h
  simp only [List.length_take] at this
  omega

theorem findSub_bound {pat : List Char} :
    ∀ {s : List Char} {n : Nat}, findSub pat s = some n → n + pat.length ≤ s.length := by
  intro s
  induction s with
  | nil =>
    intro n h
    simp only [findSub] at h
    split at h
    · rename_i hb
      cases h
      simpa using begins_length_le hb
    · cases h
  | cons c t ih =>
    intro n h
    simp only [findSub] at h
    split at h
    · rename_i hb
      cases h
      have := begins_length_le hb
      simpa using this
    · rcases Option.map_eq_some'.mp h with ⟨m, hm, rfl⟩
      have := ih hm
      simp only [List.length_cons]
      omega

theorem pyFind_neg_iff {s pat : List Char} : pyFind s pat = -1 ↔ findSub pat s = none := by
  unfold pyFind
  cases h : findSub pat s <;> simp

theorem pyFind_of_some {s pat : List Char} {n : Nat} (h : findSub pat s = some n) :
    pyFind s pat = (n : Int) := by
  simp [pyFind, h]

theorem stripAux_open {f : Nat} (ih : StripIH f)
    {msg : List Char} {n off k : Nat} {nocom : List (List Char)} {compos : List (Nat × Nat)}
    (hbal : balancedAux f (msg.drop (k + 2)) (n + 1) = true)
    (h0 : n = 0 → StripInv0 msg off nocom compos)
    (hp : 0 < n → StripInvPos off nocom compos)
    (hlen : msg.length < f + 1)
    (hk2 : k + 2 ≤ msg.length) :
    StripConcl (off + msg.length)
      (stripAux f (msg.drop (k + 2)) (off + k + 2) ((n : Int) + 1)
        (if (n : Int) = 0 then nocom ++ [msg.take k] else nocom)
        (if (n : Int) = 0 then compos ++ [(off + k, 0)] else compos)) := by
  have hdl : (msg.drop (k + 2)).length = msg.length - (k + 2) := List.length_drop _ _
  have hcast : ((n : Int) + 1) = ((n + 1 : Nat) : Int) := by push_cast; ring
  have hL : (off + k + 2) + (msg.drop (k + 2)).length = off + msg.length := by omega
  rw [hcast]
  rcases Nat.eq_zero_or_pos n with hn | hn
  · subst hn
    rw [if_pos (by norm_num), if_pos (by norm_num)]
    obtain ⟨hsum, hl2, hco⟩ := h0 rfl
    have htk : (msg.take k).length = k := by rw [List.length_take]; omega
    have hinv : StripInvPos (off + k + 2) (nocom ++ [msg.take k])
        (compos ++ [(off + k, 0)]) := by
      refine ⟨off + k, compos, rfl, ?_, ?_, by omega, ?_⟩
      · rw [segLen_append, spanLen_append]
        simp only [segLen, spanLen, List.map_cons, List.map_nil, List.sum_cons,
          List.sum_nil, htk]
        simp only [segLen, spanLen] at hsum
        omega
      · simp only [List.length_append, List.length_cons, List.length_nil]
        omega
      · intro p hpmem
        rcases hco with hnil | ⟨cs, q, rfl, hq1, hq2, _, hcs⟩
        · subst hnil; simp at hpmem
        · rcases List.mem_append.mp hpmem with h1 | h2
          · have := hcs p h1
            exact ⟨this.1, by omega⟩
          · have hpq : p = q := by simpa using h2
            subst hpq
            exact ⟨hq1, by omega⟩
    have := ih (msg.drop (k + 2)) (0 + 1) (off + k + 2) (nocom ++ [msg.take k])
      (compos ++ [(off + k, 0)]) (by omega) hbal (fun h => absurd h (by omega))
      (fun _ => hinv)
    rwa [hL] at this
  · rw [if_neg (by omega), if_neg (by omega)]
    obtain ⟨o, cs, hceq, hsum, hl2, ho2, hcs⟩ := hp hn
    have := ih (msg.drop (k + 2)) (n + 1) (off + k + 2) nocom compos (by omega) hbal
      (fun h => absurd h (by omega))
      (fun _ => ⟨o, cs, hceq, hsum, hl2, by omega, hcs⟩)
    rwa [hL] at this

theorem stripAux_close {f : Nat} (ih : StripIH f)
    {msg : List Char} {n off m : Nat} {nocom : List (List Char)} {compos : List (Nat × Nat)}
    (hn : 0 < n)
    (hbal : balancedAux f (msg.drop (m + 2)) (n - 1) = true)
    (hp : 0 < n → StripInvPos off nocom compos)
    (hlen : msg.length < f + 1)
    (hm2 : m + 2 ≤ msg.length) :
    StripConcl (off + msg.length)
      (stripAux f (msg.drop (m + 2)) (off + m + 2) ((n : Int) - 1) nocom
        (if (n : Int) - 1 = 0 then
           match compos.getLast? with
           | some q => compos.dropLast ++ [(q.1, off + m + 2 - q.1)]
           | none => compos
         else compos)) := by
  obtain ⟨o, cs, hceq, hsum, hl2, ho2, hcs⟩ := hp hn
  have hdl : (msg.drop (m + 2)).length = msg.length - (m + 2) := List.length_drop _ _
  have hcast : ((n : Int) - 1) = ((n - 1 : Nat) : Int) := by omega
  have hL : (off + m + 2) + (msg.drop (m + 2)).length = off + msg.length := by omega
  rw [hcast]
  by_cases hn1 : n = 1
  · subst hn1
    rw [if_pos (by norm_num)]
    rw [hceq, List.getLast?_concat, List.dropLast_concat]
    have hinv : StripInv0 (msg.drop (m + 2)) (off + m + 2) nocom
        (cs ++ [(o, off + m + 2 - o)]) := by
      rw [hceq] at hsum hl2
      rw [spanLen_append] at hsum
      refine ⟨?_, ?_, Or.inr ⟨cs, (o, off + m + 2 - o), rfl, by omega, by omega,
        fun _ => by omega, ?_⟩⟩
      · rw [spanLen_append]
        simp only [spanLen, List.map_cons, List.map_nil, List.sum_cons, List.sum_nil] at hsum ⊢
        omega
      · simpa using hl2
      · intro p hpmem
        have := hcs p hpmem
        exact ⟨this.1, by omega⟩
    have := ih (msg.drop (m + 2)) (1 - 1) (off + m + 2) nocom
      (cs ++ [(o, off + m + 2 - o)]) (by omega) hbal (fun _ => hinv)
      (fun h => absurd h (by omega))
    rwa [hL] at this
  · rw [if_neg (by omega)]
    have := ih (msg.drop (m + 2)) (n - 1) (off + m + 2) nocom compos (by omega) hbal
      (fun h => absurd h (by omega))
      (fun _ => ⟨o, cs, hceq, hsum, hl2, by omega, hcs⟩)
    rwa [hL] at this

theorem stripAux_spec : ∀ fuel : Nat, StripIH fuel := by
  intro fuel
  induction fuel with
  | zero => intro msg n off nocom compos hlen; omega
  | succ f ih =>
    intro msg n off nocom compos hlen hbal h0 hp
    by_cases hmsg : msg = []
    · subst hmsg
      have hop : findSub opC ([] : List Char) = none := by decide
      have hcl : findSub clC ([] : List Char) = none := by decide
      simp only [balancedAux, pyFind, hop, hcl, and_self, if_true, beq_iff_eq] at hbal
      subst hbal
      obtain ⟨hsum, hl2, hco⟩ := h0 rfl
      simp only [stripAux, if_pos rfl]
      refine ⟨by simpa using hsum, ?_⟩
      rcases hco with hnil | ⟨cs, q, rfl, hq1, hq2, hq3, hcs⟩
      · subst hnil
        have : nocom = [] := List.length_eq_zero.mp (by simpa using hl2)
        subst this
        right; right
        refine ⟨rfl, rfl, ?_⟩
        simp only [segLen, spanLen, List.map_nil, List.sum_nil] at hsum
        simp only [List.length_nil]
        omega
      · right; left
        have hq := hq3 rfl
        exact ⟨hl2, cs, q, rfl, hq1, by simpa using hq,
          fun p hpmem => ⟨(hcs p hpmem).1, by have := (hcs p hpmem).2; omega⟩⟩
    · have hmlen : 1 ≤ msg.length := List.length_pos.mpr hmsg
      simp only [stripAux, if_neg hmsg]
      simp only [balancedAux] at hbal
      cases hS : findSub opC msg with
      | none =>
        cases hE : findSub clC msg with
        | none =>
          -- no comment delimiters left: final segment appended
          simp only [pyFind, hS, hE, and_self, if_true, beq_iff_eq] at hbal ⊢
          subst hbal
          obtain ⟨hsum, hl2, hco⟩ := h0 rfl
          refine ⟨?_, ?_⟩
          · rw [segLen_append]
            simp only [segLen, List.map_cons, List.map_nil, List.sum_cons, List.sum_nil]
            simp only [segLen] at hsum
            omega
          · left
            constructor
            · simp only [List.length_append, List.length_cons, List.length_nil]
              omega
            · intro p hpmem
              rcases hco with hnil | ⟨cs, q, rfl, hq1, hq2, _, hcs⟩
              · subst hnil; simp at hpmem
              · rcases List.mem_append.mp hpmem with hcsmem | hqmem
                · have := hcs p hcsmem
                  exact ⟨this.1, by omega⟩
                · have hpq : p = q := by simpa using hqmem
                  subst hpq
                  exact ⟨hq1, by omega⟩
        | some m =>
          -- a close-delimiter with no open before it
          have he2 : m + 2 ≤ msg.length := by simpa [clC] using findSub_bound hE
          simp only [pyFind, hS, hE, Int.toNat_natCast, not_true, true_and, and_true,
            false_and, and_false, true_or, or_true, false_or, or_false,
            if_true, if_false] at hbal ⊢
          rw [if_neg (by omega)] at hbal ⊢
          rcases Nat.eq_zero_or_pos n with hn | hn
          · subst hn
            simp at hbal
          · have hne : ¬((n == 0) = true) := by simp only [Nat.beq_eq_true_eq]; omega
            rw [if_neg hne] at hbal
            exact stripAux_close ih hn hbal hp hlen he2
      | some k =>
        have hk2 : k + 2 ≤ msg.length := by simpa [opC] using findSub_bound hS
        cases hE : findSub clC msg with
        | none =>
          -- an open-delimiter with no close ahead
          simp only [pyFind, hS, hE, Int.toNat_natCast, not_true, true_and, and_true,
            false_and, and_false, true_or, or_true, false_or, or_false,
            if_true, if_false] at hbal ⊢
          rw [if_neg (by omega), if_pos (by omega)] at hbal ⊢
          exact stripAux_open ih hbal h0 hp hlen hk2
        | some m =>
          simp only [pyFind, hS, hE, Int.toNat_natCast, not_true, true_and, and_true,
            false_and, and_false, true_or, or_true, false_or, or_false,
            if_true, if_false] at hbal ⊢
          rw [if_neg (by omega)] at hbal ⊢
          by_cases hkm : (k : Int) < (m : Int)
          · rw [if_pos ⟨by omega, Or.inl hkm⟩] at hbal ⊢
            exact stripAux_open ih hbal h0 hp hlen hk2
          · have he2 : m + 2 ≤ msg.length := by simpa [clC] using findSub_bound hE
            rw [if_neg (by omega)] at hbal ⊢
            rcases Nat.eq_zero_or_pos n with hn | hn
            · subst hn
              simp at hbal
            · have hne : ¬((n == 0) = true) := by simp only [Nat.beq_eq_true_eq]; omega
              rw [if_neg hne] at hbal
              exact stripAux_close ih hn hbal hp hlen he2

/-- Claim C1, amended.  For every sentence text whose comments are
properly matched and nested, reinserting each recorded CommentSpan's
padding (length - 1, the span length less its single-space replacement)
recovers the original text length exactly — unless the text ends exactly
at the close of a top-level comment (a recorded span ends at
`msg.length`), in which case the recovered length falls short by exactly
one, because `" ".join` inserts no replacement space after a final
segmentless comment. -/
theorem stripComments_length (msg : List Char) (h : balanced msg = true) :
    ((∀ p ∈ (stripComments msg).2, p.1 + p.2 < msg.length) →
       msg.length = (stripComments msg).1.length + padLen (stripComments msg).2) ∧
    ((∃ p ∈ (stripComments msg).2, p.1 + p.2 = msg.length) →
       msg.length = (stripComments msg).1.length + padLen (stripComments msg).2 + 1) := by
  have hspec := stripAux_spec (msg.length + 1) msg 0 0 [] [] (by omega) h
    (fun _ => ⟨by simp [segLen, spanLen], rfl, Or.inl rfl⟩)
    (fun hh => absurd hh (by omega))
  obtain ⟨nocom, compos, hr⟩ : ∃ a b, stripAux (msg.length + 1) msg 0 0 [] [] = (a, b) :=
    ⟨_, _, rfl⟩
  simp only [Nat.cast_zero] at hspec
  rw [hr] at hspec
  simp only [StripConcl, Nat.zero_add] at hspec
  obtain ⟨hsum, hd⟩ := hspec
  have hstrip : stripComments msg = (joinSpace nocom, compos) := by
    simp only [stripComments, hr]
  rw [hstrip]
  simp only []
  rcases hd with ⟨hl1, hforall⟩ | ⟨hl1, cs, q, hceq, hq1, hq2, hcs⟩ | ⟨hn1, hn2, hn3⟩
  · have hones : ∀ p ∈ compos, 1 ≤ p.2 := fun p hp => (hforall p hp).1
    have hpad := padLen_eq compos hones
    have hsle := length_le_spanLen compos hones
    have hjl := joinSpace_length nocom
    constructor
    · intro _
      omega
    · rintro ⟨p, hpmem, hpend⟩
      have := (hforall p hpmem).2
      omega
  · have hones : ∀ p ∈ compos, 1 ≤ p.2 := by
      intro p hpmem
      rw [hceq] at hpmem
      rcases List.mem_append.mp hpmem with h1 | h2
      · exact (hcs p h1).1
      · have : p = q := by simpa using h2
        subst this; exact hq1
    have hpad := padLen_eq compos hones
    have hsle := length_le_spanLen compos hones
    have hjl := joinSpace_length nocom
    have hcl : 1 ≤ compos.length := by
      rw [hceq]; simp
    constructor
    · intro hforall
      have hq3 := hforall q (by rw [hceq]; simp)
      omega
    · intro _
      omega
  · subst hn1; subst hn2
    have hjs : (joinSpace ([] : List (List Char))).length = 0 := rfl
    have hpn : padLen [] = 0 := rfl
    constructor
    · intro _
      omega
    · rintro ⟨p, hpmem, -⟩
      simp at hpmem

/-- Claim C1, counterexample.  The text `"(**)"` has properly matched
comments, yet stripping it yields `""` with the single span `(0, 4)`:
the stripped length plus the padding is 3, not the original 4, because
the trailing comment gets no replacement space. -/
theorem c1_counterexample :
    balanced ['(', '*', '*', ')'] = true ∧
    ¬((['(', '*', '*', ')'] : List Char).length =
        (stripComments ['(', '*', '*', ')']).1.length +
          padLen (stripComments ['(', '*', '*', ')']).2) := by
  decide

/-- Claim C1, witness.  On `"(*a*) x."` — balanced, with no comment
reaching the end of the text — the exact length identity holds. -/
theorem c1_witness :
    balanced ['(', '*', 'a', '*', ')', ' ', 'x', '.'] = true ∧
    ((['(', '*', 'a', '*', ')', ' ', 'x', '.'] : List Char).length =
      (stripComments ['(', '*', 'a', '*', ')', ' ', 'x', '.']).1.length +
        padLen (stripComments ['(', '*', 'a', '*', ')', ' ', 'x', '.']).2) :=
  ⟨by decide,
    (stripComments_length ['(', '*', 'a', '*', ')', ' ', 'x', '.'] (by decide)).1 (by decide)⟩

/-- Claim C2, counterexample.  For a sentence whose stripping removed a
single leading top-level comment of length 6 at offset 0, `adjust`
applied to reported error start offset 2 returns 7 in the original text,
not 8 as the claim states: 2 + (6 - 1) = 7. -/
theorem c2_counterexample :
    (stripComments ['(', '*', 'a', 'b', '*', ')', 'f', 'o', 'o', '.']).2 = [(0, 6)] ∧
    (adjust_offset 2 2 [(0, 6)]).1 ≠ 8 := by
  decide

theorem totLen_drop_succ {lines : List (List Char)} {i : Nat} (h : i < lines.length) :
    totLen (lines.drop i) = (pyGet lines i).length + 1 + totLen (lines.drop (i + 1)) := by
  have hd : lines.drop i = lines[i] :: lines.drop (i + 1) := List.drop_eq_getElem_cons h
  rw [hd]
  simp only [totLen, pyGet, List.map_cons, List.sum_cons, List.getD_eq_getElem lines [] h]

theorem skipBlockStep_lt {lines : List (List Char)} {estr : List Char}
    {sstr : Option (List Char)} (hs : sstr ≠ some []) {st st' : SkipSt}
    (h : skipBlockStep lines estr sstr st = .inl st') :
    2 * (totLen (lines.drop st'.sline) - min st'.scol (pyGet lines st'.sline).length)
        + st'.nesting.toNat <
      2 * (totLen (lines.drop st.sline) - min st.scol (pyGet lines st.sline).length)
        + st.nesting.toNat := by
  simp only [skipBlockStep] at h
  by_cases h1 : st.nesting ≤ 0
  · rw [if_pos h1] at h; cases h
  rw [if_neg h1] at h
  by_cases h2 : lines.length ≤ st.sline
  · rw [if_pos h2] at h; cases h
  rw [if_neg h2] at h
  have hsplit := totLen_drop_succ (show st.sline < lines.length by omega)
  have hld : ((pyGet lines st.sline).drop st.scol).length
      = (pyGet lines st.sline).length - st.scol := List.length_drop _ _
  rcases sstr with _ | s
  · -- no start-delimiter: blk_start is -1
    cases hbe : findSub estr ((pyGet lines st.sline).drop st.scol) with
    | none =>
      -- nothing on this line
      simp only [pyFind, hbe, not_true, true_and, and_true, false_and, and_false,
        true_or, or_true, false_or, or_false, if_true, if_false] at h
      rw [if_neg (by omega), if_neg (by omega)] at h
      injection h with h
      subst h
      dsimp only
      omega
    | some b =>
      -- found an end
      have hbound := findSub_bound hbe
      simp only [pyFind, hbe, Int.toNat_natCast, not_true, true_and, and_true,
        false_and, and_false, true_or, or_true, false_or, or_false,
        if_true, if_false] at h
      rw [if_pos (by omega)] at h
      injection h with h
      subst h
      dsimp only
      omega
  · have hsne : s ≠ [] := fun hnil => hs (by rw [hnil])
    have hslen : 1 ≤ s.length := List.length_pos.mpr hsne
    cases hbe : findSub estr ((pyGet lines st.sline).drop st.scol) with
    | none =>
      cases hbs : findSub s ((pyGet lines st.sline).drop st.scol) with
      | none =>
        -- nothing on this line
        simp only [pyFind, hbe, hbs, not_true, true_and, and_true, false_and, and_false,
          true_or, or_true, false_or, or_false, if_true, if_false] at h
        rw [if_neg (by omega), if_neg (by omega)] at h
        injection h with h
        subst h
        dsimp only
        omega
      | some c =>
        -- found a new start
        have hbound := findSub_bound hbs
        simp only [pyFind, hbe, hbs, Int.toNat_natCast, Option.getD_some, not_true,
          true_and, and_true, false_and, and_false, true_or, or_true, false_or,
          or_false, if_true, if_false] at h
        rw [if_neg (by omega), if_pos (by omega)] at h
        injection h with h
        subst h
        dsimp only
        omega
    | some b =>
      have hboundb := findSub_bound hbe
      cases hbs : findSub s ((pyGet lines st.sline).drop st.scol) with
      | none =>
        -- found an end and no start
        simp only [pyFind, hbe, hbs, Int.toNat_natCast, not_true, true_and, and_true,
          false_and, and_false, true_or, or_true, false_or, or_false,
          if_true, if_false] at h
        rw [if_pos (by omega)] at h
        injection h with h
        subst h
        dsimp only
        omega
      | some c =>
        have hboundc := findSub_bound hbs
        simp only [pyFind, hbe, hbs, Int.toNat_natCast, Option.getD_some, not_true,
          true_and, and_true, false_and, and_false, true_or, or_true, false_or,
          or_false, if_true, if_false] at h
        by_cases hbc : b < c
        · rw [if_pos ⟨by omega, Or.inl (by omega)⟩] at h
          injection h with h
          subst h
          dsimp only
          omega
        · rw [if_neg (by omega), if_pos (by omega)] at h
          injection h with h
          subst h
          dsimp only
          omega

theorem skipIter_term {lines : List (List Char)} {estr : List Char}
    {sstr : Option (List Char)} (hs : sstr ≠ some []) :
    ∀ (N : Nat) (st : SkipSt),
      2 * (totLen (lines.drop st.sline) - min st.scol (pyGet lines st.sline).length)
          + st.nesting.toNat < N →
      ∃ r, skipBlockIter lines estr sstr N st = .inr r := by
  intro N
  induction N with
  | zero => intro st hst; omega
  | succ M ih =>
    intro st hst
    cases hstep : skipBlockStep lines estr sstr st with
    | inr r =>
      refine ⟨r, ?_⟩
      simp only [skipBlockIter, hstep]
    | inl st' =>
      have hlt := skipBlockStep_lt hs hstep
      obtain ⟨r, hr⟩ := ih st' (by omega)
      refine ⟨r, ?_⟩
      simp only [skipBlockIter, hstep, hr]

/-- Claim C10, amended.  The `_skip_block` loop (one `skipBlockStep` per
Python iteration, from the initial state with nesting 1) halts — reaching
a `.inr` answer in finitely many steps — for every finite list of lines,
every start position, every end delimiter, and every *nonempty* optional
start delimiter.  (With `sstr = some ""` the Python loop spins forever,
so the restriction is necessary.) -/
theorem c10_skip_block_total (lines : List (List Char)) (sline scol : Nat)
    (estr : List Char) (sstr : Option (List Char)) (hs : sstr ≠ some []) :
    ∃ n r, skipBlockIter lines estr sstr n ⟨sline, scol, 1⟩ = .inr r := by
  obtain ⟨r, hr⟩ := @skipIter_term lines estr sstr hs
    (2 * (totLen (lines.drop sline) - min scol (pyGet lines sline).length) + 2)
    ⟨sline, scol, 1⟩ (by dsimp only; omega)
  exact ⟨_, r, hr⟩

theorem skipIter_empty_start (n : Nat) : ∀ k : Int, 1 ≤ k →
    skipBlockIter [['x']] clC (some []) n ⟨0, 0, k⟩ = .inl ⟨0, 0, k + n⟩ := by
  induction n with
  | zero => intro k hk; simp [skipBlockIter]
  | succ m ih =>
    intro k hk
    have hstep : skipBlockStep [['x']] clC (some []) ⟨0, 0, k⟩ = .inl ⟨0, 0, k + 1⟩ := by
      simp only [skipBlockStep]
      rw [if_neg (by omega)]
      rw [if_neg (by norm_num)]
      have hbe : findSub clC ((pyGet [['x']] 0).drop 0) = none := by decide
      have hbs : findSub ([] : List Char) ((pyGet [['x']] 0).drop 0) = some 0 := by decide
      simp only [pyFind, hbe, hbs, Int.toNat_natCast, Option.getD_some, not_true,
        true_and, and_true, false_and, and_false, true_or, or_true, false_or,
        or_false, if_true, if_false]
      rw [if_neg (by omega), if_pos (by omega)]
      norm_num
    have hrec := ih (k + 1) (by omega)
    simp only [skipBlockIter, hstep, hrec, Sum.inl.injEq, SkipSt.mk.injEq]
    exact ⟨trivial, trivial, by omega⟩

/-- Claim C10, counterexample.  With the empty start delimiter
`sstr = some ""` (allowed by the claim's "every optional start
delimiter"), the `_skip_block` loop never terminates: on the one-line
buffer `["x"]` with end delimiter `"*)"` every iteration re-finds the
empty start at index 0, advances nothing and increments the nesting, so
no iteration count ever reaches an answer — Python's loop hangs. -/
theorem c10_counterexample :
    ¬ ∃ n r, skipBlockIter [['x']] clC (some []) n ⟨0, 0, 1⟩ = .inr r := by
  rintro ⟨n, r, hr⟩
  rw [skipIter_empty_start n 1 (by norm_num)] at hr
  cases hr

/-- Claim C10, witness.  The comment configuration (end `"*)"`, start
`"(*"`, both nonempty) halts on a small buffer. -/
theorem c10_witness :
    (some opC ≠ some ([] : List Char)) ∧
    ∃ n r, skipBlockIter [['x']] clC (some opC) n ⟨0, 0, 1⟩ = .inr r :=
  ⟨by decide, c10_skip_block_total [['x']] 0 0 clC (some opC) (by decide)⟩

theorem begins_cons_ne {a c : Char} {t xs : List Char} (h : c ≠ a) :
    begins (a :: t) (c :: xs) = false := by
  simp only [begins, List.length_cons, List.take_succ_cons, decide_eq_false_iff_not]
  intro hEq
  exact h (List.head_eq_of_cons_eq hEq)

theorem findSub_none_plain {a : Char} {t s : List Char} (h : ∀ c ∈ s, c ≠ a) :
    findSub (a :: t) s = none := by
  induction s with
  | nil => simp [findSub, begins]
  | cons c cs ih =>
    rw [findSub, begins_cons_ne (h c (by simp))]
    simp only [Bool.false_eq_true, if_false]
    rw [ih fun d hd => h d (by simp [hd])]
    rfl

theorem findSub_append_plain {a : Char} {t rest : List Char} : ∀ {pre : List Char},
    (∀ c ∈ pre, c ≠ a) →
    findSub (a :: t) (pre ++ rest) = (findSub (a :: t) rest).map (· + pre.length) := by
  intro pre
  induction pre with
  | nil =>
    intro _
    simp only [List.nil_append, List.length_nil]
    cases hr : findSub (a :: t) rest <;> simp
  | cons c pre' ih =>
    intro h
    rw [List.cons_append, findSub, begins_cons_ne (h c (by simp))]
    simp only [Bool.false_eq_true, if_false]
    rw [ih fun d hd => h d (by simp [hd])]
    cases hr : findSub (a :: t) rest
    · simp
    · simp
      omega

theorem plainChar_spec {c : Char} (h : plainChar c = true) :
    c ≠ '.' ∧ c ≠ '(' ∧ c ≠ ')' ∧ c ≠ '*' ∧ c ≠ '"' := by
  simp only [plainChar, Bool.not_eq_true', Bool.or_eq_false_iff,
    decide_eq_false_iff_not] at h
  exact ⟨h.1.1.1.1, h.1.1.1.2, h.1.1.2, h.1.2, h.2⟩

theorem c6_part1 (pre suf : List Char)
    (hpre : ∀ c ∈ pre, plainChar c = true) (hsuf : ∀ c ∈ suf, plainChar c = true)
    (hs : suf = [] ∨ ∃ s', suf = ' ' :: s') :
    find_dot_after [pre ++ '.' :: suf] 0 0 = some (0, pre.length) := by
  have hpre' : ∀ c ∈ pre, c ≠ '.' ∧ c ≠ '(' ∧ c ≠ ')' ∧ c ≠ '*' ∧ c ≠ '"' :=
    fun c hc => plainChar_spec (hpre c hc)
  have hsuf' : ∀ c ∈ suf, c ≠ '.' ∧ c ≠ '(' ∧ c ≠ ')' ∧ c ≠ '*' ∧ c ≠ '"' :=
    fun c hc => plainChar_spec (hsuf c hc)
  have hdot : findSub dotC (pre ++ '.' :: suf) = some pre.length := by
    rw [show dotC = '.' :: [] from rfl]
    rw [findSub_append_plain (fun c hc => (hpre' c hc).1)]
    simp [findSub, begins]
  have hop : findSub opC (pre ++ '.' :: suf) = none := by
    rw [show opC = '(' :: ['*'] from rfl]
    apply findSub_none_plain
    intro c hc
    rcases List.mem_append.mp hc with h1 | h2
    · exact (hpre' c h1).2.1
    · rcases List.mem_cons.mp h2 with rfl | h3
      · decide
      · exact (hsuf' c h3).2.1
  have hcl : findSub clC (pre ++ '.' :: suf) = none := by
    rw [show clC = '*' :: [')'] from rfl]
    apply findSub_none_plain
    intro c hc
    rcases List.mem_append.mp hc with h1 | h2
    · exact (hpre' c h1).2.2.2.1
    · rcases List.mem_cons.mp h2 with rfl | h3
      · decide
      · exact (hsuf' c h3).2.2.2.1
  have hq : findSub quoteC (pre ++ '.' :: suf) = none := by
    rw [show quoteC = '"' :: [] from rfl]
    apply findSub_none_plain
    intro c hc
    rcases List.mem_append.mp hc with h1 | h2
    · exact (hpre' c h1).2.2.2.2
    · rcases List.mem_cons.mp h2 with rfl | h3
      · decide
      · exact (hsuf' c h3).2.2.2.2
  have hc2 : ¬((↑pre.length : Int) = -1) := by omega
  have hcom : ¬((0 : Int) ≤ -1) := by norm_num
  have hkey : findDotStep [pre ++ '.' :: suf] (0, 0) = .inr (some (0, pre.length)) := by
    simp only [findDotStep]
    rw [if_neg (by norm_num)]
    have hline : (pyGet [pre ++ '.' :: suf] 0).drop (0 : Nat) = pre ++ '.' :: suf := rfl
    simp only [hline, pyFind, hdot, hop, hcl, hq, hc2, hcom, Int.toNat_natCast,
      not_true, not_false_iff, true_and, and_true, false_and, and_false, true_or,
      or_true, false_or, or_false, if_true, if_false, List.drop_left]
    rcases hs with rfl | ⟨s', rfl⟩
    · simp
    · simp
  show findDotIter [pre ++ '.' :: suf] (2 * totLen [pre ++ '.' :: suf] + 2) (0, 0) =
    some (0, pre.length)
  rw [show 2 * totLen [pre ++ '.' :: suf] + 2 = (2 * totLen [pre ++ '.' :: suf] + 1) + 1 from rfl]
  simp only [findDotIter, hkey]

theorem c6_part2 (pre suf : List Char)
    (hpre : ∀ c ∈ pre, plainChar c = true) (hsuf : ∀ c ∈ suf, plainChar c = true) :
    find_dot_after [pre ++ '.' :: '.' :: '.' :: suf] 0 0 = some (0, pre.length + 2) := by
  have hpre' : ∀ c ∈ pre, c ≠ '.' ∧ c ≠ '(' ∧ c ≠ ')' ∧ c ≠ '*' ∧ c ≠ '"' :=
    fun c hc => plainChar_spec (hpre c hc)
  have hsuf' : ∀ c ∈ suf, c ≠ '.' ∧ c ≠ '(' ∧ c ≠ ')' ∧ c ≠ '*' ∧ c ≠ '"' :=
    fun c hc => plainChar_spec (hsuf c hc)
  have hmem : ∀ c ∈ ('.' :: '.' :: '.' :: suf), c = '.' ∨ c ∈ suf := by
    intro c hc
    rcases List.mem_cons.mp hc with rfl | hc1
    · exact Or.inl rfl
    rcases List.mem_cons.mp hc1 with rfl | hc2
    · exact Or.inl rfl
    rcases List.mem_cons.mp hc2 with rfl | hc3
    · exact Or.inl rfl
    · exact Or.inr hc3
  have hdot : findSub dotC (pre ++ '.' :: '.' :: '.' :: suf) = some pre.length := by
    rw [show dotC = '.' :: [] from rfl]
    rw [findSub_append_plain (fun c hc => (hpre' c hc).1)]
    simp [findSub, begins]
  have hop : findSub opC (pre ++ '.' :: '.' :: '.' :: suf) = none := by
    rw [show opC = '(' :: ['*'] from rfl]
    apply findSub_none_plain
    intro c hc
    rcases List.mem_append.mp hc with h1 | h2
    · exact (hpre' c h1).2.1
    · rcases hmem c h2 with rfl | h3
      · decide
      · exact (hsuf' c h3).2.1
  have hcl : findSub clC (pre ++ '.' :: '.' :: '.' :: suf) = none := by
    rw [show clC = '*' :: [')'] from rfl]
    apply findSub_none_plain
    intro c hc
    rcases List.mem_append.mp hc with h1 | h2
    · exact (hpre' c h1).2.2.2.1
    · rcases hmem c h2 with rfl | h3
      · decide
      · exact (hsuf' c h3).2.2.2.1
  have hq : findSub quoteC (pre ++ '.' :: '.' :: '.' :: suf) = none := by
    rw [show quoteC = '"' :: [] from rfl]
    apply findSub_none_plain
    intro c hc
    rcases List.mem_append.mp hc with h1 | h2
    · exact (hpre' c h1).2.2.2.2
    · rcases hmem c h2 with rfl | h3
      · decide
      · exact (hsuf' c h3).2.2.2.2
  have hc2 : ¬((↑pre.length : Int) = -1) := by omega
  have hcom : ¬((0 : Int) ≤ -1) := by norm_num
  have hkey : findDotStep [pre ++ '.' :: '.' :: '.' :: suf] (0, 0) =
      .inr (some (0, pre.length + 2)) := by
    simp only [findDotStep]
    rw [if_neg (by norm_num)]
    have hline : (pyGet [pre ++ '.' :: '.' :: '.' :: suf] 0).drop (0 : Nat) =
      pre ++ '.' :: '.' :: '.' :: suf := rfl
    simp only [hline, pyFind, hdot, hop, hcl, hq, hc2, hcom, Int.toNat_natCast,
      not_true, not_false_iff, true_and, and_true, false_and, and_false, true_or,
      or_true, false_or, or_false, if_true, if_false, List.drop_left]
    simp
  show findDotIter [pre ++ '.' :: '.' :: '.' :: suf]
    (2 * totLen [pre ++ '.' :: '.' :: '.' :: suf] + 2) (0, 0) = some (0, pre.length + 2)
  rw [show 2 * totLen [pre ++ '.' :: '.' :: '.' :: suf] + 2 =
    (2 * totLen [pre ++ '.' :: '.' :: '.' :: suf] + 1) + 1 from rfl]
  simp only [findDotIter, hkey]

theorem c6_part3 (pre : List Char) (hpre : ∀ c ∈ pre, plainChar c = true) :
    find_dot_after [pre ++ ['.', '.', ' ', '.']] 0 0 = some (0, pre.length + 3) := by
  have hpre' : ∀ c ∈ pre, c ≠ '.' ∧ c ≠ '(' ∧ c ≠ ')' ∧ c ≠ '*' ∧ c ≠ '"' :=
    fun c hc => plainChar_spec (hpre c hc)
  have hdot : findSub dotC (pre ++ ['.', '.', ' ', '.']) = some pre.length := by
    rw [show dotC = '.' :: [] from rfl]
    rw [findSub_append_plain (fun c hc => (hpre' c hc).1)]
    simp [findSub, begins]
  have hop : findSub opC (pre ++ ['.', '.', ' ', '.']) = none := by
    rw [show opC = '(' :: ['*'] from rfl]
    apply findSub_none_plain
    intro c hc
    rcases List.mem_append.mp hc with h1 | h2
    · exact (hpre' c h1).2.1
    · fin_cases h2 <;> decide
  have hcl : findSub clC (pre ++ ['.', '.', ' ', '.']) = none := by
    rw [show clC = '*' :: [')'] from rfl]
    apply findSub_none_plain
    intro c hc
    rcases List.mem_append.mp hc with h1 | h2
    · exact (hpre' c h1).2.2.2.1
    · fin_cases h2 <;> decide
  have hq : findSub quoteC (pre ++ ['.', '.', ' ', '.']) = none := by
    rw [show quoteC = '"' :: [] from rfl]
    apply findSub_none_plain
    intro c hc
    rcases List.mem_append.mp hc with h1 | h2
    · exact (hpre' c h1).2.2.2.2
    · fin_cases h2 <;> decide
  have hc2 : ¬((↑pre.length : Int) = -1) := by omega
  have hcom : ¬((0 : Int) ≤ -1) := by norm_num
  have hkey1 : findDotStep [pre ++ ['.', '.', ' ', '.']] (0, 0) =
      .inl (0, pre.length + 2) := by
    simp only [findDotStep]
    rw [if_neg (by norm_num)]
    have hline : (pyGet [pre ++ ['.', '.', ' ', '.']] 0).drop (0 : Nat) =
      pre ++ ['.', '.', ' ', '.'] := rfl
    simp only [hline, pyFind, hdot, hop, hcl, hq, hc2, hcom, Int.toNat_natCast,
      not_true, not_false_iff, true_and, and_true, false_and, and_false, true_or,
      or_true, false_or, or_false, if_true, if_false, List.drop_left]
    simp
  have hsplit : pre ++ ['.', '.', ' ', '.'] = (pre ++ ['.', '.']) ++ [' ', '.'] := by
    simp
  have hdrop : (pre ++ ['.', '.', ' ', '.']).drop (pre.length + 2) = [' ', '.'] := by
    rw [hsplit]
    exact List.drop_left' (by simp)
  have hd2 : findSub dotC [' ', '.'] = some 1 := by decide
  have hop2 : findSub opC [' ', '.'] = none := by decide
  have hcl2 : findSub clC [' ', '.'] = none := by decide
  have hq2 : findSub quoteC [' ', '.'] = none := by decide
  have hc22 : ¬((1 : Int) = -1) := by norm_num
  have hkey2 : findDotStep [pre ++ ['.', '.', ' ', '.']] (0, pre.length + 2) =
      .inr (some (0, pre.length + 3)) := by
    simp only [findDotStep]
    rw [if_neg (by norm_num)]
    have hline : (pyGet [pre ++ ['.', '.', ' ', '.']] 0).drop (pre.length + 2) =
      [' ', '.'] := hdrop
    simp only [hline, pyFind, hd2, hop2, hcl2, hq2, hc22, hcom, Int.toNat_natCast,
      not_true, not_false_iff, true_and, and_true, false_and, and_false, true_or,
      or_true, false_or, or_false, if_true, if_false]
    simp
  show findDotIter [pre ++ ['.', '.', ' ', '.']]
    (2 * totLen [pre ++ ['.', '.', ' ', '.']] + 2) (0, 0) = some (0, pre.length + 3)
  rw [show 2 * totLen [pre ++ ['.', '.', ' ', '.']] + 2 =
    ((2 * totLen [pre ++ ['.', '.', ' ', '.']] + 1) + 1) from rfl]
  simp only [findDotIter, hkey1, hkey2]

/-- Claim C6, amended.  During sentence scanning over plain text (no
other delimiter characters involved): a `.` immediately followed by a
space or by the end of the line terminates the sentence; a run of three
or more dots terminates it, ending at the *third* dot of the run; and a
bare `..` is not a terminator and is skipped past (the search continues
and the next `". "` terminator is found). -/
theorem c6_dot_terminators (pre suf : List Char)
    (hpre : ∀ c ∈ pre, plainChar c = true) (hsuf : ∀ c ∈ suf, plainChar c = true) :
    ((suf = [] ∨ ∃ s', suf = ' ' :: s') →
       find_dot_after [pre ++ '.' :: suf] 0 0 = some (0, pre.length)) ∧
    find_dot_after [pre ++ '.' :: '.' :: '.' :: suf] 0 0 = some (0, pre.length + 2) ∧
    find_dot_after [pre ++ ['.', '.', ' ', '.']] 0 0 = some (0, pre.length + 3) :=
  ⟨fun hs => c6_part1 pre suf hpre hsuf hs,
   c6_part2 pre suf hpre hsuf,
   c6_part3 pre hpre⟩

/-- Claim C6, counterexample.  On `"x..."` the dot run terminates the
sentence at the third dot, position (0,3), not at the second dot (0,2)
as the claim states; and on `".\ta. "` a `.` followed by a tab — which
is whitespace — does *not* terminate the sentence: the scan skips it and
stops at the later `". "` at (0,3). -/
theorem c6_counterexample :
    (find_dot_after [['x', '.', '.', '.']] 0 0 = some (0, 3) ∧
      some ((0, 3) : Nat × Nat) ≠ some ((0, 2) : Nat × Nat)) ∧
    (find_dot_after [['.', '\t', 'a', '.', ' ']] 0 0 = some (0, 3) ∧
      some ((0, 3) : Nat × Nat) ≠ some ((0, 0) : Nat × Nat)) := by
  decide

/-- Claim C6, witness.  With `pre = "a"` and an empty `suf`: `"a."`
terminates at (0,1); `"a..."` terminates at (0,3), its third dot;
`"a.. ."` skips the bare `".."` and terminates at (0,4). -/
theorem c6_witness :
    find_dot_after [['a', '.']] 0 0 = some (0, 1) ∧
    find_dot_after [['a', '.', '.', '.']] 0 0 = some (0, 3) ∧
    find_dot_after [['a', '.', '.', ' ', '.']] 0 0 = some (0, 4) :=
  ⟨(c6_dot_terminators ['a'] [] (by decide) (by decide)).1 (Or.inl rfl),
   (c6_dot_terminators ['a'] [] (by decide) (by decide)).2.1,
   (c6_dot_terminators ['a'] [] (by decide) (by decide)).2.2⟩

/-- Claim C7, amended.  On `"- - foo."` at the start of a line,
`nextSentence` returns the bullet Span (0,0)-(0,0) covering only the
first `-`: the repeat run stops at the space, because only consecutive
repeats of the same bullet character merge into one token (as
`"-- foo."`, whose bullet Span is (0,0)-(0,1), shows). -/
theorem c7_bullet_span :
    get_message_range [['-', ' ', '-', ' ', 'f', 'o', 'o', '.']] (0, 0) =
      some ⟨(0, 0), (0, 0)⟩ ∧
    get_message_range [['-', '-', ' ', 'f', 'o', 'o', '.']] (0, 0) =
      some ⟨(0, 0), (0, 1)⟩ := by
  decide

/-- Claim C7, counterexample.  On `"- - foo."` the returned Span stops at
(0,0) — covering only `"-"` — and not at (0,2): `-` repeated with a
space between does not merge into one bullet token. -/
theorem c7_counterexample :
    get_message_range [['-', ' ', '-', ' ', 'f', 'o', 'o', '.']] (0, 0) =
      some ⟨(0, 0), (0, 0)⟩ ∧
    some (⟨(0, 0), (0, 0)⟩ : Span) ≠ some ⟨(0, 0), (0, 2)⟩ := by
  decide

/-- Claim C8, amended.  On `"(* c *) foo."` from (0,0), `nextSentence`
returns the Span from (0,0) — the `start` field is always the given
`after` position; the leading comment is skipped only while locating the
terminator — to (0,11). -/
theorem c8_comment_span :
    get_message_range [['(', '*', ' ', 'c', ' ', '*', ')', ' ', 'f', 'o', 'o', '.']] (0, 0) =
      some ⟨(0, 0), (0, 11)⟩ := by
  decide

/-- Claim C8, counterexample.  The Span returned for `"(* c *) foo."`
starts at (0,0), not at (0,8): `_get_message_range` stores the `after`
argument unchanged as the Span start. -/
theorem c8_counterexample :
    get_message_range [['(', '*', ' ', 'c', ' ', '*', ')', ' ', 'f', 'o', 'o', '.']] (0, 0) =
      some ⟨(0, 0), (0, 11)⟩ ∧
    (⟨(0, 0), (0, 11)⟩ : Span).start ≠ (0, 8) := by
  decide

/-- Claim C2, amended.  With commentSpans `[(0, 6)]` — as recorded by
stripping a sentence with one leading comment of length 6 — `adjust`
maps the reported error start offset 2 (relative to the stripped text)
to offset 7 in the original text. -/
theorem c2_adjust_offset :
    (stripComments ['(', '*', 'a', 'b', '*', ')', 'f', 'o', 'o', '.']).2 = [(0, 6)] ∧
    (adjust_offset 2 2 (stripComments ['(', '*', 'a', 'b', '*', ')', 'f', 'o', 'o', '.']).2).1
      = 7 := by
  decide


theorem posLt_iff {p q : Nat × Nat} :
    posLt p q = true ↔ (p.1 < q.1 ∨ (p.1 = q.1 ∧ p.2 < q.2)) := by
  simp [posLt, Bool.or_eq_true, Bool.and_eq_true, beq_iff_eq, decide_eq_true_eq]

theorem posLe_iff {p q : Nat × Nat} :
    posLe p q = true ↔ (p.1 < q.1 ∨ (p.1 = q.1 ∧ p.2 ≤ q.2)) := by
  simp only [posLe, Bool.or_eq_true, posLt_iff, beq_iff_eq, Prod.ext_iff]
  omega

theorem posLe_refl {p : Nat × Nat} : posLe p p = true := by
  rw [posLe_iff]; omega

theorem posLe_trans {a b c : Nat × Nat} (h1 : posLe a b = true) (h2 : posLe b c = true) :
    posLe a c = true := by
  rw [posLe_iff] at *; omega

theorem posLt_of_le_of_lt {a b c : Nat × Nat} (h1 : posLe a b = true)
    (h2 : posLt b c = true) : posLt a c = true := by
  rw [posLe_iff] at h1; rw [posLt_iff] at *; omega

theorem posLe_of_lt {a b : Nat × Nat} (h : posLt a b = true) : posLe a b = true := by
  rw [posLt_iff] at h; rw [posLe_iff]; omega

theorem posLt_inc1_of_le {a b : Nat × Nat} (h : posLe a b = true) :
    posLt a (inc1 b) = true := by
  rcases a with ⟨x, y⟩; rcases b with ⟨u, v⟩
  rw [posLe_iff] at h; rw [posLt_iff]
  simp only [inc1] at *
  omega

theorem posLe_inc1 {a : Nat × Nat} : posLe a (inc1 a) = true := by
  rcases a with ⟨x, y⟩
  rw [posLe_iff]
  simp [inc1]

theorem getLastD_default_irrel {l : List (Nat × Nat)} (h : l ≠ []) (d d' : Nat × Nat) :
    l.getLastD d = l.getLastD d' := by
  cases l with
  | nil => exact absurd rfl h
  | cons a t => rfl

theorem getLastD_mem {l : List (Nat × Nat)} (h : l ≠ []) (d : Nat × Nat) :
    l.getLastD d ∈ l := by
  induction l generalizing d with
  | nil => exact absurd rfl h
  | cons a t ih =>
    rw [List.getLastD_cons]
    cases t with
    | nil => simp [List.getLastD]
    | cons b t' => exact List.mem_cons_of_mem a (ih (by simp) a)

theorem lastPoint_concat {l : List (Nat × Nat)} {x : Nat × Nat} :
    lastPoint (l ++ [x]) = x := by
  simp [lastPoint]

theorem lastPoint_cons_ne {a : Nat × Nat} {t : List (Nat × Nat)} (h : t ≠ []) :
    lastPoint (a :: t) = lastPoint t := by
  rw [lastPoint, lastPoint, List.getLastD_cons]
  exact getLastD_default_irrel h a (0, 0)

theorem mem_posLe_lastPoint {l : List (Nat × Nat)} (hs : sortedEps l) {p : Nat × Nat}
    (hp : p ∈ l) : posLe p (lastPoint l) = true := by
  induction l with
  | nil => simp at hp
  | cons a t ih =>
    rw [sortedEps, List.pairwise_cons] at hs
    obtain ⟨ha, ht⟩ := hs
    rcases List.mem_cons.mp hp with rfl | hpt
    · cases t with
      | nil => exact posLe_refl
      | cons b t' =>
        rw [lastPoint_cons_ne (by simp)]
        have hmem : lastPoint (b :: t') ∈ b :: t' := getLastD_mem (by simp) (0, 0)
        exact posLe_of_lt (ha _ hmem)
    · have htne : t ≠ [] := List.ne_nil_of_mem hpt
      rw [lastPoint_cons_ne htne]
      exact ih ht hpt

theorem sortedEps_take {l : List (Nat × Nat)} (h : sortedEps l) (n : Nat) :
    sortedEps (l.take n) := h.sublist (List.take_sublist n l)

theorem sortedEps_concat {l : List (Nat × Nat)} {x : Nat × Nat} (h : sortedEps l)
    (hx : ∀ p ∈ l, posLt p x = true) : sortedEps (l ++ [x]) := by
  rw [sortedEps, List.pairwise_append]
  exact ⟨h, List.pairwise_singleton _ _, fun a ha b hb => by
    have : b = x := by simpa using hb
    subst this
    exact hx a ha⟩

theorem skipBlockStep_mono {lines : List (List Char)} {estr : List Char}
    {sstr : Option (List Char)} {st st' : SkipSt}
    (h : skipBlockStep lines estr sstr st = .inl st') :
    posLe (st.sline, st.scol) (st'.sline, st'.scol) = true := by
  simp only [skipBlockStep] at h
  split at h
  · cases h
  split at h
  · cases h
  split at h
  · injection h with h
    subst h
    rw [posLe_iff]
    dsimp only
    omega
  split at h
  · injection h with h
    subst h
    rw [posLe_iff]
    dsimp only
    omega
  · injection h with h
    subst h
    rw [posLe_iff]
    dsimp only
    omega

theorem skipBlockStep_stop {lines : List (List Char)} {estr : List Char}
    {sstr : Option (List Char)} {st : SkipSt} {p : Nat × Nat}
    (h : skipBlockStep lines estr sstr st = .inr (some p)) :
    p = (st.sline, st.scol) := by
  simp only [skipBlockStep] at h
  split at h
  · injection h with h
    injection h with h
    exact h.symm
  split at h
  · injection h with h
    cases h
  split at h
  · cases h
  split at h
  · cases h
  · cases h

theorem skipBlockIter_mono {lines : List (List Char)} {estr : List Char}
    {sstr : Option (List Char)} :
    ∀ {n : Nat} {st : SkipSt} {p : Nat × Nat},
      skipBlockIter lines estr sstr n st = .inr (some p) →
      posLe (st.sline, st.scol) p = true := by
  intro n
  induction n with
  | zero => intro st p h; cases h
  | succ m ih =>
    intro st p h
    rw [skipBlockIter] at h
    cases hstep : skipBlockStep lines estr sstr st with
    | inl st' =>
      rw [hstep] at h
      exact posLe_trans (skipBlockStep_mono hstep) (ih h)
    | inr r =>
      rw [hstep] at h
      injection h with h
      subst h
      rw [skipBlockStep_stop hstep]
      exact posLe_refl

theorem skip_block_mono {lines : List (List Char)} {sline scol : Nat} {estr : List Char}
    {sstr : Option (List Char)} {p : Nat × Nat}
    (h : skip_block lines sline scol estr sstr = some p) :
    posLe (sline, scol) p = true := by
  rw [skip_block] at h
  split at h
  · rename_i heq
    subst h
    exact skipBlockIter_mono heq
  · cases h

theorem skip_comment_mono {lines : List (List Char)} {sline scol : Nat} {p : Nat × Nat}
    (h : skip_comment lines sline scol = some p) : posLe (sline, scol) p = true :=
  skip_block_mono h

theorem skip_str_mono {lines : List (List Char)} {sline scol : Nat} {p : Nat × Nat}
    (h : skip_str lines sline scol = some p) : posLe (sline, scol) p = true :=
  skip_block_mono h

theorem findDotStep_mono_inl {lines : List (List Char)} {st st' : Nat × Nat}
    (h : findDotStep lines st = .inl st') : posLe st st' = true := by
  simp only [findDotStep] at h
  split at h
  · cases h
  split at h
  · cases h
  split at h
  · injection h with h
    subst h
    rcases st with ⟨a, b⟩
    rw [posLe_iff]
    dsimp only
    omega
  split at h
  · split at h
    · split at h
      · cases h
      · rename_i heq
        injection h with h
        subst h
        have := skip_comment_mono heq
        rcases st with ⟨a, b⟩
        exact posLe_trans (by rw [posLe_iff]; dsimp only; omega) this
    · split at h
      · cases h
      · rename_i heq
        injection h with h
        subst h
        have := skip_str_mono heq
        rcases st with ⟨a, b⟩
        exact posLe_trans (by rw [posLe_iff]; dsimp only; omega) this
  split at h
  · cases h
  split at h
  · cases h
  split at h
  · injection h with h
    subst h
    rcases st with ⟨a, b⟩
    rw [posLe_iff]
    dsimp only
    omega
  · injection h with h
    subst h
    rcases st with ⟨a, b⟩
    rw [posLe_iff]
    dsimp only
    omega

theorem findDotStep_mono_inr {lines : List (List Char)} {st : Nat × Nat} {p : Nat × Nat}
    (h : findDotStep lines st = .inr (some p)) : posLe st p = true := by
  simp only [findDotStep] at h
  split at h
  · injection h with h
    cases h
  split at h
  · cases h
  split at h
  · cases h
  split at h
  · split at h
    · split at h
      · injection h with h
        cases h
      · cases h
    · split at h
      · injection h with h
        cases h
      · cases h
  split at h
  · injection h with h
    injection h with h
    subst h
    rcases st with ⟨a, b⟩
    rw [posLe_iff]
    dsimp only
    omega
  split at h
  · injection h with h
    injection h with h
    subst h
    rcases st with ⟨a, b⟩
    rw [posLe_iff]
    dsimp only
    omega
  split at h
  · cases h
  · cases h

theorem findDotIter_mono {lines : List (List Char)} :
    ∀ {n : Nat} {st p : Nat × Nat}, findDotIter lines n st = some p →
      posLe st p = true := by
  intro n
  induction n with
  | zero => intro st p h; cases h
  | succ m ih =>
    intro st p h
    rw [findDotIter] at h
    cases hstep : findDotStep lines st with
    | inr r =>
      rw [hstep] at h
      subst h
      exact findDotStep_mono_inr hstep
    | inl st' =>
      rw [hstep] at h
      exact posLe_trans (findDotStep_mono_inl hstep) (ih h)

theorem find_dot_after_mono {lines : List (List Char)} {sline scol : Nat} {p : Nat × Nat}
    (h : find_dot_after lines sline scol = some p) : posLe (sline, scol) p = true :=
  findDotIter_mono h

theorem skipWsFrom_mono :
    ∀ (ls : List (List Char)) (line col : Nat) {p : Nat × Nat},
      skipWsFrom ls line col = some p → posLe (line, col) p = true := by
  intro ls
  induction ls with
  | nil => intro line col p h; cases h
  | cons l rest ih =>
    intro line col p h
    simp only [skipWsFrom] at h
    split at h
    · injection h with h
      subst h
      rw [posLe_iff]
      dsimp only
      omega
    · refine posLe_trans ?_ (ih (line + 1) 0 h)
      rw [posLe_iff]
      dsimp only
      omega

theorem findNextIter_mono {lines : List (List Char)} :
    ∀ {n : Nat} {st p : Nat × Nat}, findNextIter lines n st = some p →
      posLe st p = true := by
  intro n
  induction n with
  | zero => intro st p h; cases h
  | succ m ih =>
    rintro ⟨a, b⟩ p h
    rw [findNextIter] at h
    cases hws : skipWsFrom (lines.drop (a, b).1) (a, b).1 (a, b).2 with
    | none => rw [hws] at h; cases h
    | some lc =>
      rw [hws] at h
      obtain ⟨line, col⟩ := lc
      dsimp only at h
      have hle1 : posLe ((a, b) : Nat × Nat) (line, col) = true := skipWsFrom_mono _ _ _ hws
      by_cases hb1 : begins opC ((pyGet lines line).drop col) = true
      · cases hsc : skip_comment lines line (col + 2) with
        | none =>
          have h' : (none : Option (Nat × Nat)) = some p := by
            rw [if_pos hb1, hsc] at h
            exact h
          cases h'
        | some st2 =>
          have h' : findNextIter lines m st2 = some p := by
            rw [if_pos hb1, hsc] at h
            exact h
          refine posLe_trans hle1 (posLe_trans ?_ (posLe_trans (skip_comment_mono hsc) (ih h')))
          rw [posLe_iff]
          dsimp only
          omega
      · by_cases hb2 : begins clC ((pyGet lines line).drop col) = true
        · have h' : (none : Option (Nat × Nat)) = some p := by
            rw [if_neg hb1, if_pos hb2] at h
            exact h
          cases h'
        · cases hfl : (pyGet lines line).drop col with
          | nil =>
            have h' : (none : Option (Nat × Nat)) = some p := by
              rw [if_neg hb1, if_neg hb2, hfl] at h
              exact h
            cases h'
          | cons bch rest =>
            rw [if_neg hb1, if_neg hb2, hfl] at h
            have h2 : (if bulletChars.contains bch = true then
                some ((line, col + (rest.takeWhile
                  (fun ch => (bulletChars.drop 2).contains ch && ch == bch)).length) : Nat × Nat)
                else find_dot_after lines line col) = some p := h
            by_cases hbul : bulletChars.contains bch = true
            · rw [if_pos hbul] at h2
              injection h2 with h2
              subst h2
              refine posLe_trans hle1 ?_
              rw [posLe_iff]
              dsimp only
              omega
            · rw [if_neg hbul] at h2
              exact posLe_trans hle1 (find_dot_after_mono h2)

theorem get_message_range_spec {doc : List (List Char)} {after : Nat × Nat} {sp : Span}
    (h : get_message_range doc after = some sp) :
    sp.start = after ∧ posLe after sp.stop = true := by
  rw [get_message_range] at h
  cases hf : find_next_sentence doc after.1 after.2 with
  | none => rw [hf] at h; cases h
  | some ep =>
    rw [hf] at h
    injection h with h
    subst h
    refine ⟨rfl, ?_⟩
    unfold find_next_sentence at hf
    exact findNextIter_mono hf

theorem chainP_concat_last {p : Nat × Nat} {sp : Span} {rest : List Span}
    (h : chainP p (sp :: rest)) : chainP (inc1 sp.stop) rest := h.2

theorem sendLoop_sorted {oracle : Nat → DispatchR} :
    ∀ (q : List Span) (k : Nat) (eps eps' : List (Nat × Nat)),
      sortedEps eps → chainP (lastPoint eps) q →
      sendLoop oracle q k eps = some eps' → sortedEps eps' := by
  intro q
  induction q with
  | nil =>
    intro k eps eps' hs _ h
    injection h with h
    subst h
    exact hs
  | cons sp rest ih =>
    intro k eps eps' hs hc h
    rw [sendLoop] at h
    cases ho : oracle k with
    | exn =>
      rw [ho] at h
      cases h
    | failed =>
      rw [ho] at h
      have h' : some eps = some eps' := h
      injection h' with h'
      subst h'
      exact hs
    | ok =>
      rw [ho] at h
      have h' : sendLoop oracle rest (k + 1) (eps ++ [inc1 sp.stop]) = some eps' := h
      have hstop : posLe (lastPoint eps) sp.stop = true := hc.1
      have hs' : sortedEps (eps ++ [inc1 sp.stop]) :=
        sortedEps_concat hs fun p hp =>
          posLt_inc1_of_le (posLe_trans (mem_posLe_lastPoint hs hp) hstop)
      have hc' : chainP (lastPoint (eps ++ [inc1 sp.stop])) rest := by
        rw [lastPoint_concat]
        exact hc.2
      exact ih (k + 1) _ _ hs' hc' h'

theorem send_until_fail_inv {oracle : Nat → DispatchR} {s : CoqtailState}
    (hs : sortedEps s.endpoints) (hc : chainP (lastPoint s.endpoints) s.send_queue) :
    sortedEps (send_until_fail oracle s).endpoints ∧
      (send_until_fail oracle s).send_queue = [] := by
  unfold send_until_fail
  cases hl : sendLoop oracle s.send_queue 0 s.endpoints with
  | none => exact ⟨List.Pairwise.nil, rfl⟩
  | some eps' => exact ⟨sendLoop_sorted s.send_queue 0 s.endpoints eps' hs hc hl, rfl⟩

theorem rewind_op_inv {n : Nat} {r : RewindR} {s : CoqtailState}
    (hs : sortedEps s.endpoints) (hq : s.send_queue = []) :
    sortedEps (rewind_op n r s).endpoints ∧ (rewind_op n r s).send_queue = [] := by
  unfold rewind_op
  split
  · exact ⟨hs, hq⟩
  · cases r with
    | exn => exact ⟨List.Pairwise.nil, rfl⟩
    | failed => exact ⟨hs, hq⟩
    | ok extra => exact ⟨sortedEps_take hs _, hq⟩

theorem rewind_to_inv {t : Nat × Nat} {r : RewindR} {s : CoqtailState}
    (hs : sortedEps s.endpoints) (hq : s.send_queue = []) :
    sortedEps (rewind_to t r s).endpoints ∧ (rewind_to t r s).send_queue = [] :=
  rewind_op_inv hs hq

theorem sync_op_inv {curr : BufSync} {r : RewindR} {s : CoqtailState}
    (hs : sortedEps s.endpoints) (hq : s.send_queue = []) :
    sortedEps (sync_op curr r s).endpoints ∧ (sync_op curr r s).send_queue = [] := by
  unfold sync_op
  cases s.saved_sync with
  | none => exact ⟨List.Pairwise.nil, rfl⟩
  | some sv =>
    dsimp only
    split
    · exact ⟨List.Pairwise.nil, rfl⟩
    · exact rewind_to_inv hs hq

theorem scanQueue_chain {doc : List (List Char)} :
    ∀ (n : Nat) (lp limit : Nat × Nat), chainP lp (scanQueue doc n lp limit) := by
  intro n
  induction n with
  | zero => intro lp limit; trivial
  | succ m ih =>
    intro lp limit
    rw [scanQueue]
    cases hg : get_message_range doc lp with
    | none => trivial
    | some sp =>
      dsimp only
      split
      · exact ⟨(get_message_range_spec hg).2, ih (inc1 sp.stop) limit⟩
      · trivial

theorem step_op_inv {doc : List (List Char)} {curr : BufSync} {r : RewindR}
    {oracle : Nat → DispatchR} {s : CoqtailState}
    (hs : sortedEps s.endpoints) (hq : s.send_queue = []) :
    sortedEps (step_op doc curr r oracle s).endpoints ∧
      (step_op doc curr r oracle s).send_queue = [] := by
  unfold step_op
  dsimp only
  obtain ⟨hs1, hq1⟩ := @sync_op_inv curr r s hs hq
  cases hg : get_message_range doc (lastPoint (sync_op curr r s).endpoints) with
  | none => exact ⟨hs1, hq1⟩
  | some sp =>
    apply send_until_fail_inv
    · exact hs1
    · show chainP (lastPoint (sync_op curr r s).endpoints)
        ((sync_op curr r s).send_queue ++ [sp])
      rw [hq1]
      simp only [List.nil_append]
      exact ⟨(get_message_range_spec hg).2, trivial⟩

theorem to_cursor_op_inv {doc : List (List Char)} {curr : BufSync} {cursor : Nat × Nat}
    {r1 r2 : RewindR} {oracle : Nat → DispatchR} {fuel : Nat} {s : CoqtailState}
    (hs : sortedEps s.endpoints) (hq : s.send_queue = []) :
    sortedEps (to_cursor_op doc curr cursor r1 r2 oracle fuel s).endpoints ∧
      (to_cursor_op doc curr cursor r1 r2 oracle fuel s).send_queue = [] := by
  unfold to_cursor_op
  dsimp only
  obtain ⟨hs1, hq1⟩ := @sync_op_inv curr r1 s hs hq
  split
  · exact rewind_to_inv hs1 hq1
  · apply send_until_fail_inv
    · exact hs1
    · show chainP (lastPoint (sync_op curr r1 s).endpoints)
        ((sync_op curr r1 s).send_queue ++
          scanQueue doc fuel (lastPoint (sync_op curr r1 s).endpoints)
            (cursor.1 - 1, cursor.2))
      rw [hq1]
      simp only [List.nil_append]
      exact scanQueue_chain fuel _ _

theorem reachable_inv {s : CoqtailState} (h : Reachable s) :
    sortedEps s.endpoints ∧ s.send_queue = [] := by
  induction h with
  | init => exact ⟨List.Pairwise.nil, rfl⟩
  | step doc curr r oracle _ ih => exact step_op_inv ih.1 ih.2
  | rewind n r _ ih => exact rewind_op_inv ih.1 ih.2
  | to_cursor doc curr cursor r1 r2 oracle fuel _ ih => exact to_cursor_op_inv ih.1 ih.2
  | sync curr r _ ih => exact sync_op_inv ih.1 ih.2

theorem sorted_take_filter {l : List (Nat × Nat)} (t : Nat × Nat) (h : sortedEps l) :
    l.take (l.length - l.countP (fun p => posLe t p)) =
      l.filter (fun p => !(posLe t p)) := by
  induction l with
  | nil => rfl
  | cons a l' ih =>
    rw [sortedEps, List.pairwise_cons] at h
    obtain ⟨ha, hl'⟩ := h
    by_cases hta : posLe t a = true
    · have hall : ∀ b ∈ l', posLe t b = true := fun b hb =>
        posLe_trans hta (posLe_of_lt (ha b hb))
      have hcount : (a :: l').countP (fun p => posLe t p) = (a :: l').length := by
        rw [List.countP_eq_length]
        intro b hb
        rcases List.mem_cons.mp hb with rfl | hb'
        · exact hta
        · exact hall b hb'
      rw [hcount, Nat.sub_self, List.take_zero]
      symm
      rw [List.filter_eq_nil_iff]
      intro b hb
      rcases List.mem_cons.mp hb with rfl | hb'
      · simp [hta]
      · simp [hall b hb']
    · have hcount : (a :: l').countP (fun p => posLe t p) = l'.countP (fun p => posLe t p) := by
        rw [List.countP_cons]
        simp [hta]
      have hkle : l'.countP (fun p => posLe t p) ≤ l'.length := List.countP_le_length _
      have hlen : (a :: l').length - l'.countP (fun p => posLe t p)
          = (l'.length - l'.countP (fun p => posLe t p)) + 1 := by
        simp only [List.length_cons]
        omega
      rw [hcount, hlen, List.take_succ_cons, ih hl', List.filter_cons]
      simp [hta]

theorem rewind_to_ok_mem {t : Nat × Nat} {e : Nat} {s : CoqtailState}
    (hs : sortedEps s.endpoints) {p : Nat × Nat}
    (hp : p ∈ (rewind_to t (RewindR.ok e) s).endpoints) : ¬(posLe t p = true) := by
  unfold rewind_to rewind_op at hp
  split at hp
  · rename_i hcond
    rcases hcond with h0 | hnil
    · exact List.countP_eq_zero.mp h0 p hp
    · rw [hnil] at hp
      simp at hp
  · dsimp only at hp
    have heq : s.endpoints.take
        (s.endpoints.length - (s.endpoints.countP (fun q => posLe t q) + e)) =
        (s.endpoints.take (s.endpoints.length - s.endpoints.countP (fun q => posLe t q))).take
          (s.endpoints.length - (s.endpoints.countP (fun q => posLe t q) + e)) := by
      rw [List.take_take, min_eq_left (by omega)]
    rw [heq] at hp
    have hp2 := List.take_subset _ _ hp
    rw [sorted_take_filter t hs] at hp2
    have := (List.mem_filter.mp hp2).2
    simp only [Bool.not_eq_true'] at this
    simp [this]

theorem sync_op_saved {c : BufSync} {r : RewindR} {s : CoqtailState} :
    (sync_op c r s).saved_sync = some c := by
  unfold sync_op
  rfl

theorem sync_op_clears (s : CoqtailState) (c : BufSync) (e : Nat)
    (hs : sortedEps s.endpoints)
    (hpos : ∀ sv, s.saved_sync = some sv → sv.buf = c.buf →
      posLe (sv.pos.1 - 1, sv.pos.2) (c.pos.1 - 1, c.pos.2) = true) :
    (sync_op c (RewindR.ok e) s).endpoints.countP
      (fun p => posLe (c.pos.1 - 1, c.pos.2) p) = 0 := by
  unfold sync_op
  cases hsv : s.saved_sync with
  | none => rfl
  | some sv =>
    dsimp only
    by_cases hb : sv.buf ≠ c.buf
    · rw [if_pos hb]
      rfl
    · rw [if_neg hb]
      have hbeq : sv.buf = c.buf := not_ne_iff.mp hb
      have ht01 := hpos sv hsv hbeq
      rw [List.countP_eq_zero]
      intro p hp
      exact fun hple => rewind_to_ok_mem hs hp (posLe_trans ht01 hple)

/-- Claim C3.  In every state of the script state machine reachable by
any sequence of `step`, `rewind`, `to_cursor` and `sync` operations —
under arbitrary documents, revision markers and prover responses — the
endpoint stack is strictly increasing in the lexicographic order on
(line, column) positions. -/
theorem c3_endpoints_strictly_increasing {s : CoqtailState} (h : Reachable s) :
    sortedEps s.endpoints :=
  (reachable_inv h).1

/-- Claim C3, witness.  The state reached from the initial state by one
`step` over the one-line document `"x."` (prover accepting) has a
strictly increasing endpoint stack. -/
theorem c3_witness :
    sortedEps (step_op [['x', '.']] ⟨0, (1, 1)⟩ (RewindR.ok 0)
      (fun _ => DispatchR.ok) resetState).endpoints :=
  c3_endpoints_strictly_increasing
    (Reachable.step [['x', '.']] ⟨0, (1, 1)⟩ (RewindR.ok 0) (fun _ => DispatchR.ok)
      Reachable.init)

/-- Claim C4, amended.  For every target position and every *sorted*
prior endpoint stack, when the prover acknowledges the rewind undoing
exactly the requested number of steps (no extra), `rewind_to` removes
exactly the endpoints at or past the target and no others: the resulting
stack is the prior one with precisely the entries `≥ pos` deleted. -/
theorem c4_rewind_to_exact (s : CoqtailState) (target : Nat × Nat)
    (hs : sortedEps s.endpoints) :
    (rewind_to target (RewindR.ok 0) s).endpoints =
      s.endpoints.filter (fun p => !(posLe target p)) := by
  unfold rewind_to rewind_op
  split
  · rename_i hcond
    rcases hcond with h0 | hnil
    · have hnone := List.countP_eq_zero.mp h0
      symm
      rw [List.filter_eq_self]
      intro b hb
      have hnb := hnone b hb
      have hfalse : posLe target b = false := by
        cases hx : posLe target b
        · rfl
        · exact absurd hx hnb
      simp [hfalse]
    · rw [hnil]
      rfl
  · dsimp only
    have := sorted_take_filter target hs
    simpa using this

/-- Claim C4, counterexample.  With the sorted stack [(0,1), (0,3)] and
target (0,2), a prover rewind that reports one extra step undone
truncates the stack to [], deleting the endpoint (0,1) < (0,2) as well —
so for an arbitrary prior stack and prover behaviour `rewind_to` does
not remove exactly the endpoints ≥ pos. -/
theorem c4_counterexample :
    (rewind_to (0, 2) (RewindR.ok 1)
        ⟨none, [(0, 1), (0, 3)], [], none⟩).endpoints = [] ∧
    (⟨none, [(0, 1), (0, 3)], [], none⟩ : CoqtailState).endpoints.filter
        (fun p => !(posLe (0, 2) p)) = [(0, 1)] ∧
    ([] : List (Nat × Nat)) ≠ [(0, 1)] := by
  decide

/-- Claim C4, witness.  On the sorted stack [(0,1), (0,3)] with target
(0,2) and an exact successful rewind, exactly the endpoint (0,3) ≥ (0,2)
is removed. -/
theorem c4_witness :
    (rewind_to (0, 2) (RewindR.ok 0)
        ⟨none, [(0, 1), (0, 3)], [], none⟩).endpoints =
      (⟨none, [(0, 1), (0, 3)], [], none⟩ : CoqtailState).endpoints.filter
        (fun p => !(posLe (0, 2) p)) :=
  c4_rewind_to_exact ⟨none, [(0, 1), (0, 3)], [], none⟩ (0, 2)
    (by rw [sortedEps]; exact List.Pairwise.cons (by decide) (List.pairwise_singleton _ _))

/-- Claim C5.  Whenever `send_until_fail` returns, the pending send queue
is empty: each successful dispatch pops one sentence, a dispatch failure
clears the whole remaining queue rather than being fatal, and a session
error resets the machine (via `fail` / `coqtail#Stop`); in every case
the machine is back in a consistent state with no queued sentences. -/
theorem c5_send_queue_empty (oracle : Nat → DispatchR) (s : CoqtailState) :
    (send_until_fail oracle s).send_queue = [] := by
  unfold send_until_fail
  cases sendLoop oracle s.send_queue 0 s.endpoints
  · rfl
  · rfl

/-- Claim C9, amended.  Calling `sync` twice in a row with no intervening
document change (the same revision marker both times) leaves the
endpoint stack after the second call exactly as the first call left it,
provided the endpoint stack is sorted (as the machine maintains), the
prover rewind requested by the first call (if any) reports success, and
the previously saved revision's position does not lie beyond the current
one. -/
theorem c9_sync_idempotent (s : CoqtailState) (c : BufSync) (e : Nat) (r2 : RewindR)
    (hs : sortedEps s.endpoints)
    (hpos : ∀ sv, s.saved_sync = some sv → sv.buf = c.buf →
      posLe (sv.pos.1 - 1, sv.pos.2) (c.pos.1 - 1, c.pos.2) = true) :
    (sync_op c r2 (sync_op c (RewindR.ok e) s)).endpoints =
      (sync_op c (RewindR.ok e) s).endpoints := by
  have hclear := sync_op_clears s c e hs hpos
  conv_lhs => rw [sync_op]
  rw [sync_op_saved]
  dsimp only
  rw [if_neg (by simp)]
  unfold rewind_to rewind_op
  rw [hclear]
  rw [if_pos (Or.inl rfl)]

/-- Claim C9, counterexample.  From a state whose saved revision sits at
line 10 while the cursor has moved up to line 1, the first `sync`
rewinds to (9,0) — a no-op, since the sole endpoint (0,5) lies before it
— and records position (1,0); the second `sync` then rewinds to (0,0)
and empties the stack.  So without the added hypothesis two consecutive
syncs with identical arguments are not idempotent on the endpoint
stack. -/
theorem c9_counterexample :
    (sync_op ⟨0, (1, 0)⟩ (RewindR.ok 0)
        (sync_op ⟨0, (1, 0)⟩ (RewindR.ok 0)
          ⟨some ⟨0, (10, 0)⟩, [(0, 5)], [], none⟩)).endpoints ≠
      (sync_op ⟨0, (1, 0)⟩ (RewindR.ok 0)
        ⟨some ⟨0, (10, 0)⟩, [(0, 5)], [], none⟩).endpoints := by
  decide

/-- Claim C9, witness.  With a sorted stack [(0,4)], a saved revision at
(1,0) not beyond the current position (1,5), and successful exact
rewinds, a second identical `sync` leaves the endpoint stack unchanged. -/
theorem c9_witness :
    (sync_op ⟨0, (1, 5)⟩ (RewindR.ok 0)
        (sync_op ⟨0, (1, 5)⟩ (RewindR.ok 0)
          ⟨some ⟨0, (1, 0)⟩, [(0, 4)], [], none⟩)).endpoints =
      (sync_op ⟨0, (1, 5)⟩ (RewindR.ok 0)
        ⟨some ⟨0, (1, 0)⟩, [(0, 4)], [], none⟩).endpoints :=
  c9_sync_idempotent ⟨some ⟨0, (1, 0)⟩, [(0, 4)], [], none⟩ ⟨0, (1, 5)⟩ 0 (RewindR.ok 0)
    (by rw [sortedEps]; exact List.pairwise_singleton _ _)
    (fun sv hsv hb => by
      have h : BufSync.mk 0 (1, 0) = sv := Option.some.inj hsv
      rw [← h]
      decide)

end Coqtail
